import Mathlib

/-!
Verification development for the dictionary lookup engine in `server.py`.

Python strings are modelled as `List Char`.  Python `set` values are modelled
as `List Nat` used only through membership, which matches the source: every
use of a set in `lookup_words` (intersection, union, final `in` filters) is
membership-determined, and the produced `data` list order comes from the
pre-sorted base list, never from set iteration order.
-/

abbrev Str := List Char

/-- Whitespace test used to model Python `str.strip`, `str.split` and the
`\s` regex class on the character repertoire of this program. -/
def isSp (c : Char) : Bool := c = ' ' || c = '\t' || c = '\n' || c = '\r'

/-- Model of Python `str.lower` at the character level, covering the ASCII and
Ukrainian/Cyrillic letters this program works with; other characters map to
themselves. -/
def lowerChar (c : Char) : Char :=
  match c with
  | 'A' => 'a' | 'B' => 'b' | 'C' => 'c' | 'D' => 'd' | 'E' => 'e' | 'F' => 'f'
  | 'G' => 'g' | 'H' => 'h' | 'I' => 'i' | 'J' => 'j' | 'K' => 'k' | 'L' => 'l'
  | 'M' => 'm' | 'N' => 'n' | 'O' => 'o' | 'P' => 'p' | 'Q' => 'q' | 'R' => 'r'
  | 'S' => 's' | 'T' => 't' | 'U' => 'u' | 'V' => 'v' | 'W' => 'w' | 'X' => 'x'
  | 'Y' => 'y' | 'Z' => 'z'
  | 'А' => 'а' | 'Б' => 'б' | 'В' => 'в'
  | 'Г' => 'г' | 'Ґ' => 'ґ' | 'Д' => 'д'
  | 'Е' => 'е' | 'Є' => 'є' | 'Ж' => 'ж'
  | 'З' => 'з' | 'И' => 'и' | 'І' => 'і'
  | 'Ї' => 'ї' | 'Й' => 'й' | 'К' => 'к'
  | 'Л' => 'л' | 'М' => 'м' | 'Н' => 'н'
  | 'О' => 'о' | 'П' => 'п' | 'Р' => 'р'
  | 'С' => 'с' | 'Т' => 'т' | 'У' => 'у'
  | 'Ф' => 'ф' | 'Х' => 'х' | 'Ц' => 'ц'
  | 'Ч' => 'ч' | 'Ш' => 'ш' | 'Щ' => 'щ'
  | 'Ь' => 'ь' | 'Ю' => 'ю' | 'Я' => 'я'
  | c => c

/-- `s.lower()` for the modelled alphabet. -/
def pyLower (s : Str) : Str := s.map lowerChar

/-- The combining acute accent used as the stress mark, U+0301. -/
def stressChar : Char := '́'

/-- `s.replace("́", "")`. -/
def stripStress (s : Str) : Str := s.filter (fun c => c ≠ stressChar)

/-- `s.strip()`. -/
def trimStr (s : Str) : Str :=
  ((s.dropWhile isSp).reverse.dropWhile isSp).reverse

/-- State machine for `re.sub(r"\s+", " ", s)`: `inRun` records that the
current maximal whitespace run has already emitted its single space. -/
def collapseAux : Bool → Str → Str
  | _, [] => []
  | inRun, c :: rest =>
    if isSp c then
      if inRun then collapseAux true rest
      else ' ' :: collapseAux true rest
    else c :: collapseAux false rest

/-- `re.sub(r"\s+", " ", s)`: collapse every maximal whitespace run to a
single space. -/
def collapseWs (s : Str) : Str := collapseAux false s

/-- State machine for `s.split()`: `cur` holds the reversed characters of the
word currently being read. -/
def splitAux (cur : Str) : Str → List Str
  | [] => if cur = [] then [] else [cur.reverse]
  | c :: rest =>
    if isSp c then
      if cur = [] then splitAux [] rest
      else cur.reverse :: splitAux [] rest
    else splitAux (c :: cur) rest

/-- `s.split()`: split on whitespace runs, dropping empty pieces. -/
def splitWs (s : Str) : List Str := splitAux [] s

/-- State machine for `re.findall(r'"([^"]*)"', s)`: `buf`, when present,
holds the reversed content read since the last unmatched opening quote; a
final unterminated quote yields no phrase. -/
def extractAux : Option Str → Str → List Str
  | _, [] => []
  | some buf, c :: rest =>
    if c = '"' then buf.reverse :: extractAux none rest
    else extractAux (some (c :: buf)) rest
  | none, c :: rest =>
    if c = '"' then extractAux (some []) rest
    else extractAux none rest

/-- `re.findall(r'"([^"]*)"', s)`: the contents of successive pairs of double
quotes, scanning left to right; a final unterminated quote yields nothing. -/
def extractPhrases (s : Str) : List Str := extractAux none s

/-- State machine for `re.sub(r'"[^"]*"', "", s)`: `buf`, when present, holds
the reversed text read since the last unmatched opening quote (including the
quote itself), so an unterminated trailing quote is restored verbatim. -/
def removeQAux : Option Str → Str → Str
  | none, [] => []
  | some buf, [] => buf.reverse
  | none, c :: rest =>
    if c = '"' then removeQAux (some [c]) rest
    else c :: removeQAux none rest
  | some buf, c :: rest =>
    if c = '"' then removeQAux none rest
    else removeQAux (some (c :: buf)) rest

/-- `re.sub(r'"[^"]*"', "", s)`: delete successive balanced quoted segments,
keeping an unterminated trailing quote and its tail as-is. -/
def removeQuoted (s : Str) : Str := removeQAux none s

/-- `normalize_letter`: `text.replace("ї", "і").replace("ґ", "г")`. -/
def normalizeLetter (s : Str) : Str :=
  s.map (fun c => if c = 'ї' then 'і'
    else if c = 'ґ' then 'г' else c)

/-- Python `this_word.startswith(word)`: `pyStartsWith s p` means `s` starts
with `p`. -/
def pyStartsWith : Str → Str → Bool
  | _, [] => true
  | [], _ :: _ => false
  | c :: cs, p :: ps => c = p && pyStartsWith cs ps

/-- Python `word in this_word`: `pyContains s sub` means `sub` occurs as a
contiguous substring of `s`. -/
def pyContains (s sub : Str) : Bool :=
  pyStartsWith s sub ||
    match s with
    | [] => false
    | _ :: cs => pyContains cs sub

/-- Depth update for one character of `remove_parentheticals`. -/
def parenDelta (c : Char) : Int :=
  if c = '(' then 1 else if c = ')' then -1 else 0

/-- The loop body of `remove_parentheticals`, carrying the running
`paren_depth` (an unbounded integer, exactly as in the source). -/
def removeParensAux : Str → Int → Str
  | [], _ => []
  | c :: rest, d =>
    if c = '(' then removeParensAux rest (d + 1)
    else if c = ')' then removeParensAux rest (d - 1)
    else if d = 0 then c :: removeParensAux rest d
    else removeParensAux rest d

/-- `remove_parentheticals(text)`. -/
def removeParentheticals (t : Str) : Str := removeParensAux t 0

/-- The `forms` value of an entry: nested dicts/lists with string leaves.
`unpack_forms` only observes the leaf strings in traversal order, so dict
and list nodes are both modelled as a `node` of children. -/
inductive Forms where
  | leaf : Str → Forms
  | node : List Forms → Forms

mutual

/-- `unpack_forms(obj)`: all string leaves in order. -/
def unpackForms : Forms → List Str
  | .leaf s => [s]
  | .node cs => unpackFormsList cs

/-- `unpack_forms` over the values/items of one dict or list node. -/
def unpackFormsList : List Forms → List Str
  | [] => []
  | f :: fs => unpackForms f ++ unpackFormsList fs

end

/-- One object of `words_data`. -/
structure Entry where
  index : Nat
  word : Str
  pos : Option Str
  freq : Option Nat
  defs : List Str
  forms : Forms

/-- The loaded model: `words_data`, `index_lookup` (term id ↦ (term text,
entry-index set)) and `word_dict_sets` (letter ↦ term-id set). -/
structure Model where
  words : List Entry
  indexLookup : List (Nat × (Str × List Nat))
  wordDict : List (Char × List Nat)

/-- `UKRAINIAN_SORT_MAP.get(c, c)`. -/
def sortMapChar (c : Char) : Char :=
  match c with
  | 'а' => '0' | 'б' => '1' | 'в' => '2' | 'г' => '3'
  | 'ґ' => '4' | 'д' => '5' | 'е' => '6' | 'є' => '7'
  | 'ж' => '8' | 'з' => '9' | 'и' => ':' | 'і' => ';'
  | 'ї' => '<' | 'й' => '?' | 'к' => '@' | 'л' => 'A'
  | 'м' => 'B' | 'н' => 'C' | 'о' => 'D' | 'п' => 'E'
  | 'р' => 'F' | 'с' => 'G' | 'т' => 'H' | 'у' => 'I'
  | 'ф' => 'K' | 'х' => 'L' | 'ц' => 'M' | 'ч' => 'N'
  | 'ш' => 'O' | 'щ' => 'P' | 'ь' => 'Q' | 'ю' => 'R'
  | 'я' => 'S'
  | c => c

/-- `ukrainian_sort_key(word)`. -/
def ukrainianSortKey (w : Str) : Str :=
  (stripStress (pyLower w)).map sortMapChar

/-- Python string comparison (lexicographic on code points). -/
def charListLe : Str → Str → Bool
  | [], _ => true
  | _ :: _, [] => false
  | a :: xs, b :: ys =>
    if a.val < b.val then true
    else if b.val < a.val then false
    else charListLe xs ys

/-- Key order for `freq_data`: `(freq is None, freq or 0)`. -/
def freqLe (a b : Entry) : Bool :=
  let ka : Nat := if a.freq.isNone then 1 else 0
  let kb : Nat := if b.freq.isNone then 1 else 0
  ka < kb || (ka = kb && a.freq.getD 0 ≤ b.freq.getD 0)

/-- Key order for `alpha_data`. -/
def alphaLe (a b : Entry) : Bool :=
  charListLe (ukrainianSortKey a.word) (ukrainianSortKey b.word)

/-- Stable insertion used to model Python's stable `sorted`. -/
def insertLe {α : Type} (le : α → α → Bool) (x : α) : List α → List α
  | [] => [x]
  | y :: ys => if le x y then x :: y :: ys else y :: insertLe le x ys

/-- Stable sort used to model Python's `sorted(key=...)`. -/
def sortLe {α : Type} (le : α → α → Bool) : List α → List α
  | [] => []
  | x :: xs => insertLe le x (sortLe le xs)

/-- `freq_data`. -/
def freqData (m : Model) : List Entry := sortLe freqLe m.words

/-- `alpha_data`. -/
def alphaData (m : Model) : List Entry := sortLe alphaLe m.words

def freqStr : Str := ['f', 'r', 'e', 'q']
def alphaStr : Str := ['a', 'l', 'p', 'h', 'a']
def alphaRevStr : Str := ['a', 'l', 'p', 'h', 'a', '_', 'r', 'e', 'v']

/-- Base dataset selection by sort order (unknown names default to `freq`). -/
def baseData (m : Model) (sort : Str) : List Entry :=
  if sort = freqStr then freqData m
  else if sort = alphaStr then alphaData m
  else if sort = alphaRevStr then (alphaData m).reverse
  else freqData m

/-- The base dataset after the part-of-speech filter (`if pos_filter:` is
Python truthiness, so `None` and the empty string both skip the filter). -/
def posData (m : Model) (sort : Str) (pos : Option Str) : List Entry :=
  match pos with
  | none => baseData m sort
  | some p =>
    if p.isEmpty then baseData m sort
    else (baseData m sort).filter (fun w => w.pos == some p)

/-- `normalized_search`: trim, lowercase, collapse whitespace. -/
def normalizeSearch (q : Str) : Str := collapseWs (pyLower (trimStr q))

/-- `literal_phrases` of a raw query. -/
def queryPhrases (q : Str) : List Str := extractPhrases (normalizeSearch q)

/-- `literal_words` of a raw query. -/
def queryLiteralWords (q : Str) : List Str :=
  (queryPhrases q).flatMap splitWs

/-- `fuzzy_words` of a raw query. -/
def queryFuzzyWords (q : Str) : List Str :=
  splitWs (collapseWs (trimStr (removeQuoted (normalizeSearch q))))

/-- `re.search(r"[a-z]", s)` as a Bool. -/
def hasLatin (s : Str) : Bool := s.any (fun c => 'a' ≤ c && c ≤ 'z')

/-- `can_include`: substring matching is allowed only for a lone fuzzy word
with no Latin letters. -/
def canInclude : List Str → Bool
  | [t] => !hasLatin t
  | _ => false

/-- `word_dict_sets.get(letter, set())`. -/
def dictGet (m : Model) (c : Char) : List Nat :=
  (m.wordDict.lookup c).getD []

/-- STEP 1 of the per-word scan: intersect the letter buckets over the
letters of the word; `none` models the `word_indexes is None` start. -/
def letterTermIds (m : Model) : Str → Option (List Nat)
  | [] => none
  | c :: cs =>
    some (match letterTermIds m cs with
      | none => dictGet m c
      | some acc => acc.filter (fun tid => tid ∈ dictGet m c))

/-- The fuzzy match policy: substring when `can_include`, otherwise prefix
or exact equality. -/
def matchesPolicy (canInc : Bool) (w text : Str) : Bool :=
  if canInc then pyContains text w
  else pyStartsWith text w || text = w

/-- The literal-word match policy: exact equality with the term text. -/
def exactPolicy (w text : Str) : Bool := text = w

/-- STEP 2 + union: filter the term ids by the policy on their text, then
union the entry-index sets of the surviving terms. -/
def wordCandidates (m : Model) (pol : Str → Str → Bool) (w : Str) : List Nat :=
  let tids := (letterTermIds m w).getD []
  let matching := tids.filter (fun tid =>
    match m.indexLookup.lookup tid with
    | none => false
    | some pr => pol w pr.1)
  matching.flatMap (fun tid =>
    match m.indexLookup.lookup tid with
    | none => []
    | some pr => pr.2)

/-- The per-word loop: skip empty words, normalize letters, compute the
candidate set and intersect it into the accumulator. -/
def foldWords (m : Model) (pol : Str → Str → Bool) (ws : List Str)
    (init : Option (List Nat)) : Option (List Nat) :=
  ws.foldl (fun acc w =>
    if w = [] then acc
    else
      let nw := wordCandidates m pol (normalizeLetter w)
      match acc with
      | none => some nw
      | some s => some (s.filter (fun i => i ∈ nw))) init

/-- The literal-phrase check of one entry: definitions (parentheticals
removed, lowercased, letters collapsed, stress marks kept), forms leaves and
the headword (both stress-stripped, lowercased, letters collapsed). -/
def entryMatchesPhrase (e : Entry) (ph : Str) : Bool :=
  let np := normalizeLetter ph
  e.defs.any (fun d =>
      pyContains (normalizeLetter (pyLower (removeParentheticals d))) np)
    || (unpackForms e.forms).any
      (fun f => normalizeLetter (pyLower (stripStress f)) = np)
    || normalizeLetter (pyLower (stripStress e.word)) = np

/-- One iteration of the literal-phrase verification loop. -/
def phraseStep (rd : List Entry) (acc : Option (List Nat)) (ph : Str) :
    Option (List Nat) :=
  match acc with
  | none => none
  | some s =>
    let cand := rd.filter (fun w => w.index ∈ s)
    let good := (cand.filter (fun w => entryMatchesPhrase w ph)).map
      (fun w => w.index)
    some (s.filter (fun i => i ∈ good))

/-- The accumulated `indexes` set of the whole search phase: fuzzy words,
then literal words, then literal-phrase verification. -/
def searchIndexes (m : Model) (q : Str) (rd : List Entry) :
    Option (List Nat) :=
  let fw := queryFuzzyWords q
  let acc1 := foldWords m (matchesPolicy (canInclude fw)) fw none
  let acc2 := foldWords m exactPolicy (queryLiteralWords q) acc1
  (queryPhrases q).foldl (phraseStep rd) acc2

/-- Python truthiness of the `search_query` argument. -/
def qTruthy : Option Str → Bool
  | none => false
  | some s => !s.isEmpty

/-- Truthiness of `index_lookup and word_dict_sets`. -/
def modelReady (m : Model) : Bool :=
  !m.indexLookup.isEmpty && !m.wordDict.isEmpty

/-- The exact-match filter predicate of lines 358-364: the raw query is
lowercased and stress-stripped, with no whitespace normalization. -/
def exactPred (q : Str) (w : Entry) : Bool :=
  stripStress (pyLower w.word) = stripStress (pyLower q)

/-- The untruncated `result_data` right before `total_matches` is taken:
base order, pos filter, search filter, exact filter. -/
def filteredData (m : Model) (sq : Option Str) (pos : Option Str)
    (sort : Str) (exact : Bool) : List Entry :=
  let rd := posData m sort pos
  let rd2 :=
    if qTruthy sq && modelReady m then
      match searchIndexes m (sq.getD []) rd with
      | none => rd
      | some s => rd.filter (fun w => w.index ∈ s)
    else rd
  if exact && qTruthy sq then rd2.filter (exactPred (sq.getD []))
  else rd2

/-- `result_data[:limit] if limit is not None and limit > 0`. -/
def applyLimit (lim : Option Int) (l : List Entry) : List Entry :=
  match lim with
  | none => l
  | some n => if 0 < n then l.take n.toNat else l

/-- The return value of `lookup_words`. -/
structure LookupResult where
  data : List Entry
  literalPhrases : Option (List Str)
  fuzzyWords : Option (List Str)
  totalMatches : Nat

/-- `lookup_words(search_query, pos_filter, sort, limit, exact_match_only)`. -/
def lookupWords (m : Model) (sq : Option Str) (pos : Option Str)
    (sort : Str) (lim : Option Int) (exact : Bool) : LookupResult :=
  let rd := filteredData m sq pos sort exact
  let search := qTruthy sq && modelReady m
  { data := applyLimit lim rd
    literalPhrases := if search then some (queryPhrases (sq.getD [])) else none
    fuzzyWords := if search then some (queryFuzzyWords (sq.getD [])) else none
    totalMatches := rd.length }

def eC5 : Entry :=
  { index := 0, word := "закіт".data, pos := none, freq := some 1,
    defs := [], forms := .node [] }

def mC5 : Model :=
  { words := [eC5],
    indexLookup := [(0, ("закіт".data, [0]))],
    wordDict := [('з', [0]), ('а', [0]), ('к', [0]), ('і', [0]), ('т', [0])] }

/-- The phrase check as claim C3 words it: every compared text (phrase,
definitions, forms, headword) normalized by lowercasing, stress-mark
stripping and the letter-pair collapsing.  Written from the claim's words,
to be compared with `entryMatchesPhrase`, which is written from the source. -/
def specPhraseCheck (e : Entry) (ph : Str) : Bool :=
  let np := normalizeLetter (stripStress ph)
  e.defs.any (fun d =>
      pyContains
        (normalizeLetter (stripStress (pyLower (removeParentheticals d)))) np)
    || (unpackForms e.forms).any
      (fun f => normalizeLetter (stripStress (pyLower f)) = np)
    || normalizeLetter (stripStress (pyLower e.word)) = np

/-- Entry whose only definition carries a stress mark: "ко́та". -/
def eC3 : Entry :=
  { index := 0, word := "кіт".data, pos := none, freq := none,
    defs := [['к', 'о', stressChar, 'т', 'а']], forms := .node [] }

/-- Entry with headword `кіт`. -/
def eKit : Entry :=
  { index := 0, word := "кіт".data, pos := some "noun".data, freq := some 1,
    defs := ["cat (animal)".data], forms := .node [] }

/-- Model holding the single entry `кіт` with a matching term and letter
index. -/
def mKit : Model :=
  { words := [eKit],
    indexLookup := [(0, ("кіт".data, [0]))],
    wordDict := [('к', [0]), ('і', [0]), ('т', [0])] }

/-- Completeness of the loaded index for one entry index and one query
token: some term of `index_lookup` has exactly the token's letter-normalized
text, lists the entry, and is present in every letter bucket of its text —
the §3 data-model invariants of the spec, instantiated at this token. -/
def coversToken (m : Model) (eidx : Nat) (t : Str) : Bool :=
  m.indexLookup.any (fun p =>
    decide (m.indexLookup.lookup p.1 = some p.2)
    && decide (p.2.1 = normalizeLetter t)
    && decide (eidx ∈ p.2.2)
    && p.2.1.all (fun c => decide (p.1 ∈ dictGet m c)))

/-- Entry `бар`, more frequent than `барс`. -/
def e6a : Entry :=
  { index := 0, word := "бар".data, pos := none, freq := some 1,
    defs := [], forms := .node [] }

/-- Entry `барс`, less frequent than `бар`. -/
def e6b : Entry :=
  { index := 1, word := "барс".data, pos := none, freq := some 2,
    defs := [], forms := .node [] }

/-- Model with terms `бар` (entry 0) and `барс` (entry 1). -/
def m6 : Model :=
  { words := [e6a, e6b],
    indexLookup := [(0, ("бар".data, [0])), (1, ("барс".data, [1]))],
    wordDict := [('б', [0, 1]), ('а', [0, 1]), ('р', [0, 1]), ('с', [1])] }

/-! ### Generic helper lemmas -/

theorem pyStartsWithSelf (s : Str) : pyStartsWith s s = true := by
  induction s with
  | nil => rfl
  | cons c cs ih => simp [pyStartsWith, ih]

theorem pyContainsSelf (s : Str) : pyContains s s = true := by
  cases s with
  | nil => rfl
  | cons c cs => simp [pyContains, pyStartsWithSelf]

theorem pyStartsWithContains (s p : Str) (h : pyStartsWith s p = true) :
    pyContains s p = true := by
  cases s with
  | nil => cases p with
    | nil => rfl
    | cons q qs => simp [pyStartsWith] at h
  | cons c cs => simp [pyContains, h]

theorem memSortLe {α : Type} (le : α → α → Bool) (l : List α) (a : α) :
    a ∈ sortLe le l ↔ a ∈ l := by
  induction l with
  | nil => simp [sortLe]
  | cons x xs ih =>
    have hins : ∀ (y : α) (ys : List α),
        a ∈ insertLe le y ys ↔ a = y ∨ a ∈ ys := by
      intro y ys
      induction ys with
      | nil => simp [insertLe]
      | cons z zs ihz =>
        simp only [insertLe]
        by_cases hle : le y z = true
        · simp [hle]
        · simp only [hle]
          simp [List.mem_cons, ihz]
          tauto
    simp [sortLe, hins, ih]

/-! ### Claim C2: parenthetical stripping -/

/-- C2 counterexample: on the input `")а"` the source lets the depth go to
`-1` at the unmatched closing parenthesis, so the following character `'а'`
is suppressed, while the claim says every character after an unmatched `')'`
at depth zero is kept. -/
theorem claim_C2_counterexample :
    removeParentheticals [')', 'а'] = [] ∧
      'а' ∉ removeParentheticals [')', 'а'] := by
  constructor
  · rfl
  · intro h
    rw [show removeParentheticals [')', 'а'] = [] from rfl] at h
    exact (List.not_mem_nil 'а') h

theorem removeParensAuxScan (s : Str) : ∀ d : Int,
    removeParensAux s d =
      (s.zip (s.scanl (fun d c => d + parenDelta c) d)).filterMap
        (fun p => if p.1 ≠ '(' ∧ p.1 ≠ ')' ∧ p.2 = 0 then some p.1 else none) := by
  induction s with
  | nil => intro d; rfl
  | cons c cs ih =>
    intro d
    by_cases h1 : c = '('
    · subst h1
      simp [removeParensAux, List.scanl_cons, parenDelta, ih (d + 1)]
    · by_cases h2 : c = ')'
      · subst h2
        have : d + parenDelta ')' = d - 1 := by
          simp [parenDelta]
          omega
        simp [removeParensAux, List.scanl_cons, h1, this, ih (d - 1)]
      · have hd : d + parenDelta c = d := by simp [parenDelta, h1, h2]
        by_cases h3 : d = 0
        · subst h3
          simp [removeParensAux, List.scanl_cons, h1, h2, hd, ih 0]
        · simp [removeParensAux, List.scanl_cons, h1, h2, h3, hd, ih d]

/-- C2 amended: `remove_parentheticals` is a depth counter over the integers
with no floor at zero: an unmatched `')'` at depth zero drives the depth
negative, and a character is emitted exactly when it is not a parenthesis
and the running depth (`'('` count minus `')'` count before it, starting at
0) is exactly zero — so characters after an unmatched `')'` at depth zero
are suppressed until a later `'('` brings the depth back to zero. -/
theorem claim_C2_depth_scan (s : Str) :
    removeParentheticals s =
      (s.zip (s.scanl (fun d c => d + parenDelta c) 0)).filterMap
        (fun p => if p.1 ≠ '(' ∧ p.1 ≠ ')' ∧ p.2 = 0 then some p.1 else none) :=
  removeParensAuxScan s 0

/-! ### Claim C5: substring-policy selection -/

/-- C5 amended: the substring policy is selected exactly when there is one
single fuzzy token and it has no Latin letter `a`-`z` in it — literal
phrases play no role in the selection. -/
theorem claim_C5_policy_selection (q : Str) :
    canInclude (queryFuzzyWords q) = true ↔
      ((queryFuzzyWords q).length = 1 ∧
        ∀ t ∈ queryFuzzyWords q, ∀ c ∈ t, ¬('a' ≤ c ∧ c ≤ 'z')) := by
  cases h : queryFuzzyWords q with
  | nil => simp [canInclude]
  | cons t rest =>
    cases rest with
    | nil =>
      have hca : canInclude [t] = !hasLatin t := rfl
      rw [hca]
      constructor
      · intro hl
        refine ⟨rfl, ?_⟩
        intro t1 ht1 c hc hand
        rw [List.mem_singleton] at ht1
        subst ht1
        have h2 : hasLatin t1 = false := by
          cases hfa : hasLatin t1
          · rfl
          · rw [hfa] at hl
            exact absurd hl (by decide)
        have h3 := List.any_eq_false.mp h2 c hc
        apply h3
        simp [hand.1, hand.2]
      · intro h
        have h4 : hasLatin t = false := by
          rw [hasLatin, List.any_eq_false]
          intro c hc
          have h5 := h.2 t (List.mem_singleton.mpr rfl) c hc
          simp only [Bool.and_eq_true, decide_eq_true_eq]
          intro hand
          exact h5 hand
        rw [h4]
        rfl
    | cons t2 rest2 => simp [canInclude]

/-- C5 counterexample: the query `'"закіт" кіт'` has a literal phrase, yet
the lone fuzzy token `кіт` is still matched with the substring policy
(`can_include` never looks at the literal phrases): the entry `закіт` is
returned although its term does not start with `кіт`. -/
theorem claim_C5_counterexample :
    canInclude (queryFuzzyWords "\"закіт\" кіт".data) = true
    ∧ queryPhrases "\"закіт\" кіт".data ≠ []
    ∧ pyStartsWith "закіт".data "кіт".data = false
    ∧ (lookupWords mC5 (some "\"закіт\" кіт".data) none freqStr none
        false).data.map (fun w => w.index) = [0] := by
  refine ⟨by decide, by decide, by decide, by decide⟩

/-! ### Claim C7: totalMatches versus data length -/

/-- C7: `totalMatches` is at least `len(data)`, with equality whenever the
limit is absent or at least `totalMatches`. -/
theorem claim_C7_total_matches (m : Model) (sq pos : Option Str) (sort : Str)
    (lim : Option Int) (ex : Bool) :
    (lookupWords m sq pos sort lim ex).data.length ≤
        (lookupWords m sq pos sort lim ex).totalMatches
    ∧ (lim = none →
        (lookupWords m sq pos sort lim ex).data.length =
          (lookupWords m sq pos sort lim ex).totalMatches)
    ∧ (∀ n : Int, lim = some n →
        ((lookupWords m sq pos sort lim ex).totalMatches : Int) ≤ n →
        (lookupWords m sq pos sort lim ex).data.length =
          (lookupWords m sq pos sort lim ex).totalMatches) := by
  simp only [lookupWords, applyLimit]
  refine ⟨?_, ?_, ?_⟩
  · cases lim with
    | none => simp
    | some n =>
      by_cases hn : 0 < n
      · simp [hn, List.length_take]
      · simp [hn]
  · intro h; subst h; simp
  · intro n h htot
    subst h
    simp only at htot ⊢
    by_cases hn : 0 < n
    · simp only [hn, if_true, List.length_take]
      omega
    · simp [hn]

/-- C7 witness at a concrete call. -/
theorem claim_C7_total_matches_witness :
    (lookupWords mC5 (some "кіт".data) none freqStr none false).data.length ≤
        (lookupWords mC5 (some "кіт".data) none freqStr none false).totalMatches
    ∧ ((none : Option Int) = none →
        (lookupWords mC5 (some "кіт".data) none freqStr none false).data.length =
          (lookupWords mC5 (some "кіт".data) none freqStr none false).totalMatches)
    ∧ (∀ n : Int, (none : Option Int) = some n →
        ((lookupWords mC5 (some "кіт".data) none freqStr none
            false).totalMatches : Int) ≤ n →
        (lookupWords mC5 (some "кіт".data) none freqStr none false).data.length =
          (lookupWords mC5 (some "кіт".data) none freqStr none
            false).totalMatches) :=
  claim_C7_total_matches mC5 (some "кіт".data) none freqStr none false

/-! ### Claim C10: empty or absent query -/

/-- C10: with an absent or empty query the exact flag has no effect and the
result is the pos-filtered base ordering, truncated to the limit, with no
phrase or fuzzy-word metadata. -/
theorem claim_C10_empty_query (m : Model) (pos : Option Str) (sort : Str)
    (lim : Option Int) (ex : Bool) (sq : Option Str)
    (hq : sq = none ∨ sq = some []) :
    lookupWords m sq pos sort lim ex = lookupWords m sq pos sort lim true
    ∧ (lookupWords m sq pos sort lim ex).data =
        applyLimit lim (posData m sort pos)
    ∧ (lookupWords m sq pos sort lim ex).totalMatches =
        (posData m sort pos).length
    ∧ (lookupWords m sq pos sort lim ex).literalPhrases = none
    ∧ (lookupWords m sq pos sort lim ex).fuzzyWords = none := by
  rcases hq with h | h <;> subst h <;>
    simp [lookupWords, filteredData, qTruthy, List.isEmpty]

/-- C10 witness at a concrete call. -/
theorem claim_C10_empty_query_witness :
    lookupWords mC5 none none freqStr (some 100) false =
        lookupWords mC5 none none freqStr (some 100) true
    ∧ (lookupWords mC5 none none freqStr (some 100) false).data =
        applyLimit (some 100) (posData mC5 freqStr none)
    ∧ (lookupWords mC5 none none freqStr (some 100) false).totalMatches =
        (posData mC5 freqStr none).length
    ∧ (lookupWords mC5 none none freqStr (some 100) false).literalPhrases = none
    ∧ (lookupWords mC5 none none freqStr (some 100) false).fuzzyWords = none :=
  claim_C10_empty_query mC5 none freqStr (some 100) false none (Or.inl rfl)


/-! ### Claim C3: literal phrase verification -/

theorem entryIndexInj {rd : List Entry}
    (h : rd.Pairwise (fun a b => a.index ≠ b.index)) {a b : Entry}
    (ha : a ∈ rd) (hb : b ∈ rd) (hi : a.index = b.index) : a = b := by
  by_contra hne
  have hsym : Symmetric (fun a b : Entry => a.index ≠ b.index) :=
    fun x y hxy he => hxy he.symm
  exact (List.Pairwise.forall hsym h ha hb hne) hi

/-- C3 counterexample: for the phrase `кота` and an entry whose definition
is `ко́та` (with a stress mark), the claim's normalization (stress stripped
on both sides) reports a match, but the source never strips stress marks in
the definition comparison, so the entry does not survive verification. -/
theorem claim_C3_counterexample :
    specPhraseCheck eC3 "кота".data = true
    ∧ entryMatchesPhrase eC3 "кота".data = false
    ∧ phraseStep [eC3] (some [0]) "кота".data = some [] := by
  refine ⟨by decide, by decide, by decide⟩

/-- C3 amended: an entry of the accumulator survives phrase verification iff
some definition (parentheticals removed, lowercased, letter-collapsed, with
stress marks KEPT) contains the phrase, or some forms leaf or the headword
(stress-stripped, lowercased, letter-collapsed) equals the phrase; the
phrase itself is only letter-collapsed (it was lowercased upstream and its
stress marks are kept). -/
theorem claim_C3_phrase_verification (rd : List Entry) (s : List Nat)
    (ph : Str) (e : Entry) (he : e ∈ rd) (hs : e.index ∈ s)
    (hinj : rd.Pairwise (fun a b => a.index ≠ b.index)) :
    ∃ s2, phraseStep rd (some s) ph = some s2 ∧
      (e.index ∈ s2 ↔
        ((∃ d ∈ e.defs,
            pyContains (normalizeLetter (pyLower (removeParentheticals d)))
              (normalizeLetter ph) = true)
          ∨ (∃ f ∈ unpackForms e.forms,
              normalizeLetter (pyLower (stripStress f)) = normalizeLetter ph)
          ∨ normalizeLetter (pyLower (stripStress e.word)) = normalizeLetter ph)) := by
  refine ⟨_, rfl, ?_⟩
  rw [List.mem_filter]
  have hgood : (e.index ∈ ((rd.filter (fun w => w.index ∈ s)).filter
      (fun w => entryMatchesPhrase w ph)).map (fun w => w.index)) ↔
      entryMatchesPhrase e ph = true := by
    rw [List.mem_map]
    constructor
    · rintro ⟨w, hw, hwe⟩
      rw [List.mem_filter, List.mem_filter] at hw
      have hweq : w = e := entryIndexInj hinj
        (hw.1.1) he hwe
      rw [← hweq]
      exact hw.2
    · intro hm
      refine ⟨e, ?_, rfl⟩
      rw [List.mem_filter, List.mem_filter]
      exact ⟨⟨he, by simp [hs]⟩, hm⟩
  constructor
  · intro hmem
    have h2 := hmem.2
    rw [decide_eq_true_eq] at h2
    have h3 := hgood.mp h2
    rw [entryMatchesPhrase] at h3
    simp only [Bool.or_eq_true, List.any_eq_true, decide_eq_true_eq] at h3
    exact or_assoc.mp h3
  · intro hr
    refine ⟨hs, ?_⟩
    rw [decide_eq_true_eq]
    apply hgood.mpr
    rw [entryMatchesPhrase]
    simp only [Bool.or_eq_true, List.any_eq_true, decide_eq_true_eq]
    exact or_assoc.mpr hr

/-- C3 witness at a concrete verification step. -/
theorem claim_C3_phrase_verification_witness :
    ∃ s2, phraseStep [eC3] (some [0]) "кота".data = some s2 ∧
      (eC3.index ∈ s2 ↔
        ((∃ d ∈ eC3.defs,
            pyContains (normalizeLetter (pyLower (removeParentheticals d)))
              (normalizeLetter "кота".data) = true)
          ∨ (∃ f ∈ unpackForms eC3.forms,
              normalizeLetter (pyLower (stripStress f)) =
                normalizeLetter "кота".data)
          ∨ normalizeLetter (pyLower (stripStress eC3.word)) =
              normalizeLetter "кота".data)) :=
  claim_C3_phrase_verification [eC3] [0] "кота".data eC3
    (List.mem_singleton.mpr rfl) (by decide) (by simp)

/-! ### Claim C9: totality and unterminated quotes -/

theorem extractAuxNoQuote (v : Str) (hv : '"' ∉ v) :
    ∀ st : Option Str, extractAux st v = [] := by
  induction v with
  | nil => intro st; cases st <;> rfl
  | cons c rest ih =>
    intro st
    have hc : c ≠ '"' := fun h => hv (h ▸ List.mem_cons_self c rest)
    have hrest : '"' ∉ rest := fun h => hv (List.mem_cons_of_mem c h)
    cases st with
    | none => simp [extractAux, hc, ih hrest]
    | some buf => simp [extractAux, hc, ih hrest]

theorem removeQAuxSome (v : Str) (hv : '"' ∉ v) :
    ∀ buf : Str, removeQAux (some buf) v = buf.reverse ++ v := by
  induction v with
  | nil => intro buf; simp [removeQAux]
  | cons c rest ih =>
    intro buf
    have hc : c ≠ '"' := fun h => hv (h ▸ List.mem_cons_self c rest)
    have hrest : '"' ∉ rest := fun h => hv (List.mem_cons_of_mem c h)
    simp [removeQAux, hc, ih hrest]

/-- C9: `lookup_words` is total — in particular an unterminated quote
produces no literal phrase, its text (quote included) stays in the string
that the fuzzy tokens are split from, and every call returns a well-formed
result with `len(data) ≤ totalMatches`. -/
theorem claim_C9_totality (m : Model) (pos : Option Str) (sort : Str)
    (lim : Option Int) (ex : Bool) (u v : Str)
    (hu : '"' ∉ u) (hv : '"' ∉ v) :
    extractPhrases (u ++ '"' :: v) = []
    ∧ removeQuoted (u ++ '"' :: v) = u ++ '"' :: v
    ∧ ∀ q : Str, (lookupWords m (some q) pos sort lim ex).data.length ≤
        (lookupWords m (some q) pos sort lim ex).totalMatches := by
  refine ⟨?_, ?_, ?_⟩
  · rw [extractPhrases]
    induction u with
    | nil => simp [extractAux, extractAuxNoQuote v hv]
    | cons c rest ih =>
      have hc : c ≠ '"' := fun h => hu (h ▸ List.mem_cons_self c rest)
      have hrest : '"' ∉ rest := fun h => hu (List.mem_cons_of_mem c h)
      simp [extractAux, hc, ih hrest]
  · rw [removeQuoted]
    induction u with
    | nil => simp [removeQAux, removeQAuxSome v hv ['"']]
    | cons c rest ih =>
      have hc : c ≠ '"' := fun h => hu (h ▸ List.mem_cons_self c rest)
      have hrest : '"' ∉ rest := fun h => hu (List.mem_cons_of_mem c h)
      simp [removeQAux, hc, ih hrest]
  · intro q
    simp only [lookupWords, applyLimit]
    cases lim with
    | none => simp
    | some n =>
      by_cases hn : 0 < n
      · simp [hn, List.length_take]
      · simp [hn]

/-- C9 witness at a concrete split of an unterminated-quote query. -/
theorem claim_C9_totality_witness :
    extractPhrases (['а'] ++ '"' :: ['б']) = []
    ∧ removeQuoted (['а'] ++ '"' :: ['б']) = ['а'] ++ '"' :: ['б']
    ∧ ∀ q : Str, (lookupWords mC5 (some q) none freqStr (some 7)
        false).data.length ≤
        (lookupWords mC5 (some q) none freqStr (some 7) false).totalMatches :=
  claim_C9_totality mC5 none freqStr (some 7) false ['а'] ['б']
    (by decide) (by decide)


/-! ### Claim C4: exact-match filter -/

theorem isSpLowerChar (c : Char) : isSp (lowerChar c) = isSp c := by
  unfold lowerChar
  split <;> rfl

theorem mapLowerDropSp (l : Str) :
    (l.dropWhile isSp).map lowerChar = (l.map lowerChar).dropWhile isSp := by
  induction l with
  | nil => rfl
  | cons c cs ih =>
    simp only [List.map_cons, List.dropWhile_cons, isSpLowerChar]
    by_cases h : isSp c
    · simp [h, ih]
    · simp [h]

theorem pyLowerTrim (s : Str) : pyLower (trimStr s) = trimStr (pyLower s) := by
  show (trimStr s).map lowerChar = trimStr (s.map lowerChar)
  unfold trimStr
  rw [List.map_reverse, mapLowerDropSp, List.map_reverse, mapLowerDropSp]

theorem normalizeSearchLower (q1 q2 : Str) (h : pyLower q1 = pyLower q2) :
    normalizeSearch q1 = normalizeSearch q2 := by
  unfold normalizeSearch
  rw [pyLowerTrim, pyLowerTrim, h]

/-- C4 counterexample: for the query `" кіт"` (leading space) the claim's
comparison — against the whitespace-trimmed, collapsed, lowercased,
stress-stripped query — matches the entry `кіт`, and that entry survives
the whole search phase, yet the exact-match filter compares against the
RAW lowercased query (whitespace kept) and returns nothing. -/
theorem claim_C4_counterexample :
    (lookupWords mKit (some (' ' :: "кіт".data)) none freqStr none
        true).data.map (fun w => w.index) = []
    ∧ stripStress (pyLower eKit.word) =
        stripStress (pyLower (collapseWs (trimStr (' ' :: "кіт".data))))
    ∧ (filteredData mKit (some (' ' :: "кіт".data)) none freqStr false).map
        (fun w => w.index) = [0] :=
  ⟨by decide, by decide, by decide⟩

/-- C4 amended: with the exact flag set and a non-empty query, `data` is the
search-filtered sequence restricted to entries whose normalized headword
equals the lowercased, stress-stripped RAW query (no whitespace trimming or
collapsing); consequently changing only the case of query characters never
changes the result (stress marks and surrounding whitespace, by the
counterexample, can). -/
theorem claim_C4_exact_filter (m : Model) (q : Str) (pos : Option Str)
    (sort : Str) (lim : Option Int) (ex : Bool) (hq : q ≠ []) :
    (lookupWords m (some q) pos sort none true).data =
        (filteredData m (some q) pos sort false).filter (exactPred q)
    ∧ (∀ q2 : Str, pyLower q2 = pyLower q →
        lookupWords m (some q2) pos sort lim ex =
          lookupWords m (some q) pos sort lim ex) := by
  have hqt : qTruthy (some q) = true := by
    cases q with
    | nil => exact absurd rfl hq
    | cons a as => rfl
  constructor
  · simp only [lookupWords, applyLimit, filteredData, hqt, Bool.and_true,
      Bool.true_and, Bool.false_and, if_true, if_false, Option.getD_some]
    simp
  · intro q2 h
    have hns : normalizeSearch q2 = normalizeSearch q :=
      normalizeSearchLower q2 q h
    have hqt2 : qTruthy (some q2) = qTruthy (some q) := by
      cases q2 with
      | nil =>
        cases q with
        | nil => rfl
        | cons a as => simp [pyLower] at h
      | cons b bs =>
        cases q with
        | nil => simp [pyLower] at h
        | cons a as => rfl
    have hph : queryPhrases q2 = queryPhrases q := by
      unfold queryPhrases
      rw [hns]
    have hfw : queryFuzzyWords q2 = queryFuzzyWords q := by
      unfold queryFuzzyWords
      rw [hns]
    have hlw : queryLiteralWords q2 = queryLiteralWords q := by
      unfold queryLiteralWords
      rw [hph]
    have hsi : ∀ rd, searchIndexes m q2 rd = searchIndexes m q rd := by
      intro rd
      unfold searchIndexes
      rw [hph, hfw, hlw]
    have hep : exactPred q2 = exactPred q := by
      funext w
      unfold exactPred
      rw [h]
    have hfd : filteredData m (some q2) pos sort ex =
        filteredData m (some q) pos sort ex := by
      unfold filteredData
      simp only [Option.getD_some]
      rw [hqt2, hsi, hep]
    simp only [lookupWords, Option.getD_some]
    rw [hfd, hqt2, hph, hfw]

/-- C4 witness at a concrete call. -/
theorem claim_C4_exact_filter_witness :
    ((lookupWords mKit (some "кіт".data) none freqStr none true).data =
        (filteredData mKit (some "кіт".data) none freqStr false).filter
          (exactPred "кіт".data))
    ∧ (∀ q2 : Str, pyLower q2 = pyLower "кіт".data →
        lookupWords mKit (some q2) none freqStr (some 5) true =
          lookupWords mKit (some "кіт".data) none freqStr (some 5) true) :=
  claim_C4_exact_filter mKit "кіт".data none freqStr (some 5) true
    (by decide)


/-! ### Claim C1: exact headword lookup finds the entry -/

theorem lowerCharNeQuote (c : Char) (h : c ≠ '"') : lowerChar c ≠ '"' := by
  unfold lowerChar
  split <;> first | decide | assumption

theorem memCollapseAux (c : Char) (s : Str) :
    ∀ b : Bool, c ∈ collapseAux b s → c = ' ' ∨ c ∈ s := by
  induction s with
  | nil => intro b h; simp [collapseAux] at h
  | cons a rest ih =>
    intro b h
    by_cases ha : isSp a = true
    · cases b with
      | true =>
        rw [collapseAux, if_pos ha] at h
        rcases ih true h with h1 | h1
        · exact Or.inl h1
        · exact Or.inr (List.mem_cons_of_mem a h1)
      | false =>
        rw [collapseAux, if_pos ha] at h
        rcases List.mem_cons.mp h with h1 | h1
        · exact Or.inl h1
        · rcases ih true h1 with h2 | h2
          · exact Or.inl h2
          · exact Or.inr (List.mem_cons_of_mem a h2)
    · rw [collapseAux, if_neg ha] at h
      rcases List.mem_cons.mp h with h1 | h1
      · exact Or.inr (h1 ▸ List.mem_cons_self a rest)
      · rcases ih false h1 with h2 | h2
        · exact Or.inl h2
        · exact Or.inr (List.mem_cons_of_mem a h2)

theorem memTrim (c : Char) (s : Str) (h : c ∈ trimStr s) : c ∈ s := by
  unfold trimStr at h
  rw [List.mem_reverse] at h
  have h2 := (List.dropWhile_suffix isSp).subset h
  rw [List.mem_reverse] at h2
  exact (List.dropWhile_suffix isSp).subset h2

theorem noQuoteNormalizeSearch (q : Str) (h : '"' ∉ q) :
    '"' ∉ normalizeSearch q := by
  intro hc
  unfold normalizeSearch collapseWs at hc
  rcases memCollapseAux '"' (pyLower (trimStr q)) false hc with h1 | h1
  · exact absurd h1 (by decide)
  · rw [pyLower, List.mem_map] at h1
    obtain ⟨c0, hc0, hcl⟩ := h1
    have hc0q : c0 ∈ q := memTrim c0 q hc0
    exact lowerCharNeQuote c0 (fun he => h (he ▸ hc0q)) hcl

theorem matchesPolicyRefl (b : Bool) (w : Str) : matchesPolicy b w w = true := by
  cases b with
  | false => simp [matchesPolicy, pyStartsWithSelf]
  | true => simp [matchesPolicy, pyContainsSelf]

theorem letterTermIdsComplete (m : Model) (tid : Nat) :
    ∀ w : Str, w ≠ [] → (∀ c ∈ w, tid ∈ dictGet m c) →
      tid ∈ (letterTermIds m w).getD [] := by
  intro w
  induction w with
  | nil => intro h; exact absurd rfl h
  | cons c cs ih =>
    intro _ hall
    rw [letterTermIds]
    cases hcs : letterTermIds m cs with
    | none =>
      simp only [hcs, Option.getD_some]
      exact hall c (List.mem_cons_self c cs)
    | some acc =>
      simp only [hcs, Option.getD_some]
      have hcsne : cs ≠ [] := by
        intro hnil
        rw [hnil] at hcs
        simp [letterTermIds] at hcs
      have hmem : tid ∈ acc := by
        have h2 := ih hcsne (fun x hx => hall x (List.mem_cons_of_mem c hx))
        rw [hcs] at h2
        simpa using h2
      rw [List.mem_filter]
      exact ⟨hmem, by simp [hall c (List.mem_cons_self c cs)]⟩

theorem coversTokenCandidates (m : Model) (i : Nat) (t : Str)
    (pol : Str → Str → Bool) (hpol : ∀ w, pol w w = true)
    (ht : t ≠ []) (h : coversToken m i t = true) :
    i ∈ wordCandidates m pol (normalizeLetter t) := by
  rw [coversToken, List.any_eq_true] at h
  obtain ⟨p, hp, hcond⟩ := h
  simp only [Bool.and_eq_true, decide_eq_true_eq, List.all_eq_true] at hcond
  obtain ⟨⟨⟨hlook, htext⟩, hidx⟩, hdict⟩ := hcond
  have hnne : normalizeLetter t ≠ [] := by
    intro hnil
    apply ht
    cases t with
    | nil => rfl
    | cons a as => simp [normalizeLetter] at hnil
  rw [htext] at hdict
  have htid : p.1 ∈ (letterTermIds m (normalizeLetter t)).getD [] :=
    letterTermIdsComplete m p.1 (normalizeLetter t) hnne
      (fun c hc => hdict c hc)
  rw [wordCandidates, List.mem_flatMap]
  refine ⟨p.1, ?_, ?_⟩
  · rw [List.mem_filter]
    refine ⟨htid, ?_⟩
    simp only [hlook]
    rw [htext]
    exact hpol (normalizeLetter t)
  · simp only [hlook]
    exact hidx

theorem foldWordsConsEmpty (m : Model) (pol : Str → Str → Bool) (w : Str)
    (ws : List Str) (init : Option (List Nat)) (hw : w = []) :
    foldWords m pol (w :: ws) init = foldWords m pol ws init := by
  simp [foldWords, hw]

theorem foldWordsConsNone (m : Model) (pol : Str → Str → Bool) (w : Str)
    (ws : List Str) (hw : w ≠ []) :
    foldWords m pol (w :: ws) none =
      foldWords m pol ws (some (wordCandidates m pol (normalizeLetter w))) := by
  simp [foldWords, hw]

theorem foldWordsConsSome (m : Model) (pol : Str → Str → Bool) (w : Str)
    (ws : List Str) (s0 : List Nat) (hw : w ≠ []) :
    foldWords m pol (w :: ws) (some s0) =
      foldWords m pol ws (some (s0.filter
        (fun j => j ∈ wordCandidates m pol (normalizeLetter w)))) := by
  simp [foldWords, hw]

theorem foldWordsKeeps (m : Model) (pol : Str → Str → Bool) (i : Nat) :
    ∀ (ws : List Str) (init : Option (List Nat)),
      (∀ w ∈ ws, w ≠ [] → i ∈ wordCandidates m pol (normalizeLetter w)) →
      (∀ s0, init = some s0 → i ∈ s0) →
      ∀ s, foldWords m pol ws init = some s → i ∈ s := by
  intro ws
  induction ws with
  | nil =>
    intro init _ hinit s hfold
    exact hinit s hfold
  | cons w ws ih =>
    intro init hws hinit s hfold
    by_cases hwnil : w = []
    · rw [foldWordsConsEmpty m pol w ws init hwnil] at hfold
      exact ih _ (fun x hx => hws x (List.mem_cons_of_mem w hx)) hinit s hfold
    · have hcand : i ∈ wordCandidates m pol (normalizeLetter w) :=
        hws w (List.mem_cons_self w ws) hwnil
      cases init with
      | none =>
        rw [foldWordsConsNone m pol w ws hwnil] at hfold
        refine ih _ (fun x hx => hws x (List.mem_cons_of_mem w hx)) ?_ s hfold
        intro s0 hs0
        injection hs0 with h2
        rw [← h2]
        exact hcand
      | some s0 =>
        rw [foldWordsConsSome m pol w ws s0 hwnil] at hfold
        refine ih _ (fun x hx => hws x (List.mem_cons_of_mem w hx)) ?_ s hfold
        intro s1 hs1
        injection hs1 with h2
        rw [← h2]
        rw [List.mem_filter]
        exact ⟨hinit s0 rfl, by simp [hcand]⟩

/-- C1: looking up an entry's own headword with `exact_match_only=True`
returns a `data` list containing the entry (no limit), and every returned
entry's normalized headword equals the normalized query.  The hypotheses are
the spec's §3 data-model invariants: the entry is loaded, its headword is
non-empty and quote-free, and the index covers each of its fuzzy tokens. -/
theorem claim_C1_exact_headword_lookup (m : Model) (e : Entry)
    (he : e ∈ m.words) (hw : e.word ≠ []) (hnq : '"' ∉ e.word)
    (hcov : ∀ t ∈ queryFuzzyWords e.word, coversToken m e.index t = true) :
    e ∈ (lookupWords m (some e.word) none freqStr none true).data
    ∧ ∀ w ∈ (lookupWords m (some e.word) none freqStr none true).data,
        stripStress (pyLower w.word) = stripStress (pyLower e.word) := by
  have hqt : qTruthy (some e.word) = true := by
    cases hW : e.word with
    | nil => exact absurd hW hw
    | cons a as => simp [qTruthy, hW]
  have hph : queryPhrases e.word = [] :=
    extractAuxNoQuote (normalizeSearch e.word)
      (noQuoteNormalizeSearch e.word hnq) none
  have hlw : queryLiteralWords e.word = [] := by
    unfold queryLiteralWords
    rw [hph]
    rfl
  have hsi : ∀ rd : List Entry, searchIndexes m e.word rd =
      foldWords m (matchesPolicy (canInclude (queryFuzzyWords e.word)))
        (queryFuzzyWords e.word) none := by
    intro rd
    unfold searchIndexes
    rw [hph, hlw]
    rfl
  have hkeep : ∀ s, foldWords m
      (matchesPolicy (canInclude (queryFuzzyWords e.word)))
      (queryFuzzyWords e.word) none = some s → e.index ∈ s := by
    apply foldWordsKeeps
    · intro w hwmem hwne
      refine coversTokenCandidates m e.index w _ ?_ hwne (hcov w hwmem)
      intro x
      exact matchesPolicyRefl _ x
    · intro s0 h0
      exact absurd h0 (by simp)
  have hmembase : e ∈ posData m freqStr none := by
    have hbase : posData m freqStr none = freqData m := by
      simp [posData, baseData]
    rw [hbase]
    exact (memSortLe freqLe m.words e).mpr he
  have hrd2 : e ∈ (if qTruthy (some e.word) && modelReady m then
      match searchIndexes m e.word (posData m freqStr none) with
      | none => posData m freqStr none
      | some s => (posData m freqStr none).filter (fun w => w.index ∈ s)
    else posData m freqStr none) := by
    by_cases hmr : modelReady m = true
    · rw [hqt, hmr]
      simp only [Bool.and_self, if_true]
      rw [hsi]
      cases hacc : foldWords m
          (matchesPolicy (canInclude (queryFuzzyWords e.word)))
          (queryFuzzyWords e.word) none with
      | none => exact hmembase
      | some s =>
        simp only
        rw [List.mem_filter]
        exact ⟨hmembase, by simp [hkeep s hacc]⟩
    · have hmr2 : modelReady m = false := by
        cases h2 : modelReady m
        · rfl
        · exact absurd h2 hmr
      rw [hmr2]
      simp only [Bool.and_false, if_false]
      exact hmembase
  have hfd : filteredData m (some e.word) none freqStr true =
      (if qTruthy (some e.word) && modelReady m then
        match searchIndexes m e.word (posData m freqStr none) with
        | none => posData m freqStr none
        | some s => (posData m freqStr none).filter (fun w => w.index ∈ s)
      else posData m freqStr none).filter (exactPred e.word) := by
    unfold filteredData
    rw [hqt]
    simp only [Option.getD_some, Bool.and_true, Bool.true_and, if_true]
  have hdata : (lookupWords m (some e.word) none freqStr none true).data =
      filteredData m (some e.word) none freqStr true := rfl
  constructor
  · rw [hdata, hfd, List.mem_filter]
    refine ⟨hrd2, ?_⟩
    simp [exactPred]
  · intro w hw2
    rw [hdata, hfd] at hw2
    have h3 := (List.mem_filter.mp hw2).2
    rw [exactPred, decide_eq_true_eq] at h3
    exact h3

/-- C1 witness at a concrete model and entry. -/
theorem claim_C1_exact_headword_lookup_witness :
    eKit ∈ (lookupWords mKit (some eKit.word) none freqStr none true).data
    ∧ ∀ w ∈ (lookupWords mKit (some eKit.word) none freqStr none true).data,
        stripStress (pyLower w.word) = stripStress (pyLower eKit.word) :=
  claim_C1_exact_headword_lookup mKit eKit (List.mem_singleton.mpr rfl)
    (by decide) (by decide) (by decide)


/-! ### Claim C6: multi-token intersection and token-dropping -/

theorem splitAuxNeNil (s : Str) :
    ∀ (cur t : Str), t ∈ splitAux cur s → t ≠ [] := by
  induction s with
  | nil =>
    intro cur t ht
    by_cases hc : cur = []
    · simp [splitAux, hc] at ht
    · simp only [splitAux, if_neg hc, List.mem_singleton] at ht
      rw [ht]
      simp [hc]
  | cons c rest ih =>
    intro cur t ht
    cases hsp : isSp c with
    | true =>
      by_cases hc : cur = []
      · rw [splitAux] at ht
        simp only [hsp, if_true, if_pos hc] at ht
        exact ih [] t ht
      · rw [splitAux] at ht
        simp only [hsp, if_true, if_neg hc] at ht
        rcases List.mem_cons.mp ht with h1 | h1
        · rw [h1]
          simp [hc]
        · exact ih [] t h1
    | false =>
      rw [splitAux] at ht
      simp only [hsp] at ht
      exact ih (c :: cur) t ht

theorem queryFuzzyNeNil (q t : Str) (ht : t ∈ queryFuzzyWords q) : t ≠ [] :=
  splitAuxNeNil _ [] t ht

theorem memConsForallStr (P : Str → Prop) (w : Str) (ws : List Str)
    (hw : w = []) :
    (∀ x ∈ ws, x ≠ [] → P x) ↔ (∀ x ∈ w :: ws, x ≠ [] → P x) := by
  constructor
  · intro h x hx hne
    rcases List.mem_cons.mp hx with h3 | h3
    · exact absurd (h3.trans hw) hne
    · exact h x h3 hne
  · intro h x hx hne
    exact h x (List.mem_cons_of_mem w hx) hne

theorem foldWordsSomeChar (m : Model) (pol : Str → Str → Bool) :
    ∀ (ws : List Str) (s0 : List Nat),
      ∃ s1, foldWords m pol ws (some s0) = some s1 ∧
        ∀ i, (i ∈ s1 ↔ i ∈ s0 ∧ ∀ w ∈ ws, w ≠ [] →
          i ∈ wordCandidates m pol (normalizeLetter w)) := by
  intro ws
  induction ws with
  | nil =>
    intro s0
    exact ⟨s0, rfl, fun i => by simp⟩
  | cons w ws ih =>
    intro s0
    by_cases hw : w = []
    · obtain ⟨s1, hfold, hiff⟩ := ih s0
      refine ⟨s1, ?_, ?_⟩
      · rw [foldWordsConsEmpty m pol w ws (some s0) hw]
        exact hfold
      · intro i
        rw [hiff i]
        constructor
        · rintro ⟨h1, h2⟩
          exact ⟨h1, (memConsForallStr _ w ws hw).mp h2⟩
        · rintro ⟨h1, h2⟩
          exact ⟨h1, (memConsForallStr _ w ws hw).mpr h2⟩
    · obtain ⟨s1, hfold, hiff⟩ := ih (s0.filter
        (fun j => j ∈ wordCandidates m pol (normalizeLetter w)))
      refine ⟨s1, ?_, ?_⟩
      · rw [foldWordsConsSome m pol w ws s0 hw]
        exact hfold
      · intro i
        rw [hiff i, List.mem_filter]
        simp only [decide_eq_true_eq]
        constructor
        · rintro ⟨⟨h1, h2⟩, h3⟩
          refine ⟨h1, fun x hx => ?_⟩
          rcases List.mem_cons.mp hx with h4 | h4
          · intro _
            rw [h4]
            exact h2
          · exact h3 x h4
        · rintro ⟨h1, h2⟩
          exact ⟨⟨h1, h2 w (List.mem_cons_self w ws) hw⟩,
            fun x hx => h2 x (List.mem_cons_of_mem w hx)⟩

theorem foldWordsNoneChar (m : Model) (pol : Str → Str → Bool) :
    ∀ ws : List Str, foldWords m pol ws none = none ∨
      ∃ s1, foldWords m pol ws none = some s1 ∧
        ∀ i, (i ∈ s1 ↔ ∀ w ∈ ws, w ≠ [] →
          i ∈ wordCandidates m pol (normalizeLetter w)) := by
  intro ws
  induction ws with
  | nil => exact Or.inl rfl
  | cons w ws ih =>
    by_cases hw : w = []
    · rcases ih with h | ⟨s1, hfold, hiff⟩
      · left
        rw [foldWordsConsEmpty m pol w ws none hw]
        exact h
      · right
        refine ⟨s1, ?_, ?_⟩
        · rw [foldWordsConsEmpty m pol w ws none hw]
          exact hfold
        · intro i
          rw [hiff i]
          exact memConsForallStr _ w ws hw
    · right
      obtain ⟨s1, hfold, hiff⟩ := foldWordsSomeChar m pol ws
        (wordCandidates m pol (normalizeLetter w))
      refine ⟨s1, ?_, ?_⟩
      · rw [foldWordsConsNone m pol w ws hw]
        exact hfold
      · intro i
        rw [hiff i]
        constructor
        · rintro ⟨h1, h2⟩ x hx
          rcases List.mem_cons.mp hx with h3 | h3
          · intro _
            rw [h3]
            exact h1
          · exact h2 x h3
        · intro h2
          exact ⟨h2 w (List.mem_cons_self w ws) hw,
            fun x hx => h2 x (List.mem_cons_of_mem w hx)⟩

theorem wordCandidatesMono (m : Model) (pol1 pol2 : Str → Str → Bool)
    (hpol : ∀ a b, pol1 a b = true → pol2 a b = true) (w : Str) (i : Nat)
    (h : i ∈ wordCandidates m pol1 w) : i ∈ wordCandidates m pol2 w := by
  rw [wordCandidates, List.mem_flatMap] at h ⊢
  obtain ⟨tid, htid, hmem⟩ := h
  refine ⟨tid, ?_, hmem⟩
  rw [List.mem_filter] at htid ⊢
  refine ⟨htid.1, ?_⟩
  have h2 := htid.2
  cases hlk : m.indexLookup.lookup tid with
  | none =>
    simp only [hlk] at h2
    exact absurd h2 (by simp)
  | some pr =>
    simp only [hlk] at h2 ⊢
    exact hpol _ _ h2

theorem matchesPolicyFalseLe (b : Bool) (w t : Str)
    (h : matchesPolicy false w t = true) : matchesPolicy b w t = true := by
  cases b with
  | false => exact h
  | true =>
    simp only [matchesPolicy, Bool.false_eq_true, if_false, if_true,
      Bool.or_eq_true, decide_eq_true_eq] at h ⊢
    rcases h with h | h
    · exact pyStartsWithContains t w h
    · rw [h]
      exact pyContainsSelf w

theorem canIncludeFalseOfLen (ws : List Str) (h : 2 ≤ ws.length) :
    canInclude ws = false := by
  cases ws with
  | nil => simp at h
  | cons a l =>
    cases l with
    | nil => simp at h
    | cons b l2 => rfl

/-- C6 counterexample: with `limit=1` the two-token query `бар барс`
returns entry 1, but dropping the second token changes the lone remaining
token's policy to substring, entry 0 now matches and fills the truncated
list, so the one-token result `[0]` is NOT a superset of `[1]`. -/
theorem claim_C6_counterexample :
    (lookupWords m6 (some "бар барс".data) none freqStr (some 1)
        false).data.map (fun w => w.index) = [1]
    ∧ (lookupWords m6 (some "бар".data) none freqStr (some 1)
        false).data.map (fun w => w.index) = [0]
    ∧ (1 : Nat) ∉ (lookupWords m6 (some "бар".data) none freqStr (some 1)
        false).data.map (fun w => w.index) :=
  ⟨by decide, by decide, by decide⟩

/-- C6 amended: without truncation (`limit` absent) an unquoted multi-token
query with exact matching disabled returns exactly the base entries every
token of which fuzzy-matches (prefix policy, intersection), and dropping
tokens yields a superset of the untruncated results; with a finite limit the
truncated lists need not be supersets (see the counterexample). -/
theorem claim_C6_multi_token (m : Model) (q1 q2 : Str) (pos : Option Str)
    (sort : Str)
    (hp1 : queryPhrases q1 = []) (hp2 : queryPhrases q2 = [])
    (hlen : 2 ≤ (queryFuzzyWords q1).length)
    (hsub : ∀ t ∈ queryFuzzyWords q2, t ∈ queryFuzzyWords q1) :
    (∀ w, w ∈ (lookupWords m (some q1) pos sort none false).data ↔
        (w ∈ posData m sort pos ∧ (modelReady m = true →
          ∀ t ∈ queryFuzzyWords q1,
            w.index ∈ wordCandidates m (matchesPolicy false)
              (normalizeLetter t))))
    ∧ ∀ w ∈ (lookupWords m (some q1) pos sort none false).data,
        w ∈ (lookupWords m (some q2) pos sort none false).data := by
  have hq1ne : q1 ≠ [] := by
    intro h
    rw [h, show queryFuzzyWords [] = [] from rfl] at hlen
    simp at hlen
  have hqt1 : qTruthy (some q1) = true := by
    cases hW : q1 with
    | nil => exact absurd hW hq1ne
    | cons a as => simp [qTruthy, hW]
  have hci : canInclude (queryFuzzyWords q1) = false :=
    canIncludeFalseOfLen _ hlen
  have hlw1 : queryLiteralWords q1 = [] := by
    unfold queryLiteralWords
    rw [hp1]
    rfl
  have hlw2 : queryLiteralWords q2 = [] := by
    unfold queryLiteralWords
    rw [hp2]
    rfl
  have hsi1 : ∀ rd : List Entry, searchIndexes m q1 rd =
      foldWords m (matchesPolicy false) (queryFuzzyWords q1) none := by
    intro rd
    unfold searchIndexes
    rw [hp1, hlw1]
    simp only [hci, foldWords, List.foldl_nil]
  have hsi2 : ∀ rd : List Entry, searchIndexes m q2 rd =
      foldWords m (matchesPolicy (canInclude (queryFuzzyWords q2)))
        (queryFuzzyWords q2) none := by
    intro rd
    unfold searchIndexes
    rw [hp2, hlw2]
    simp only [foldWords, List.foldl_nil]
  obtain ⟨s1, hfold1, hiff1⟩ : ∃ s1,
      foldWords m (matchesPolicy false) (queryFuzzyWords q1) none = some s1 ∧
      ∀ i, (i ∈ s1 ↔ ∀ w ∈ queryFuzzyWords q1, w ≠ [] →
        i ∈ wordCandidates m (matchesPolicy false) (normalizeLetter w)) := by
    rcases foldWordsNoneChar m (matchesPolicy false) (queryFuzzyWords q1)
      with hnone | hsome
    · exfalso
      cases hts : queryFuzzyWords q1 with
      | nil =>
        rw [hts] at hlen
        simp at hlen
      | cons t0 rest0 =>
        have ht0ne : t0 ≠ [] := queryFuzzyNeNil q1 t0
          (hts ▸ List.mem_cons_self t0 rest0)
        rw [hts, foldWordsConsNone m (matchesPolicy false) t0 rest0 ht0ne]
          at hnone
        obtain ⟨sx, hfx, _⟩ := foldWordsSomeChar m (matchesPolicy false) rest0
          (wordCandidates m (matchesPolicy false) (normalizeLetter t0))
        rw [hfx] at hnone
        exact Option.noConfusion hnone
    · exact hsome
  have hdata1 : (lookupWords m (some q1) pos sort none false).data =
      (if modelReady m = true then
        (posData m sort pos).filter (fun w => w.index ∈ s1)
      else posData m sort pos) := by
    show filteredData m (some q1) pos sort false = _
    unfold filteredData
    simp only [Option.getD_some, hqt1, Bool.true_and, Bool.false_and,
      Bool.false_eq_true, if_false]
    by_cases hmr : modelReady m = true
    · simp only [hmr, if_true]
      rw [hsi1, hfold1]
    · have hmr2 : modelReady m = false := by
        cases h2 : modelReady m
        · rfl
        · exact absurd h2 hmr
      simp [hmr2]
  have hchar : ∀ w : Entry,
      w ∈ (lookupWords m (some q1) pos sort none false).data ↔
        (w ∈ posData m sort pos ∧ (modelReady m = true →
          ∀ t ∈ queryFuzzyWords q1,
            w.index ∈ wordCandidates m (matchesPolicy false)
              (normalizeLetter t))) := by
    intro w
    rw [hdata1]
    by_cases hmr : modelReady m = true
    · rw [if_pos hmr, List.mem_filter]
      simp only [decide_eq_true_eq]
      constructor
      · rintro ⟨h1, h2⟩
        refine ⟨h1, fun _ t ht => ?_⟩
        exact (hiff1 w.index).mp h2 t ht (queryFuzzyNeNil q1 t ht)
      · rintro ⟨h1, h2⟩
        refine ⟨h1, (hiff1 w.index).mpr ?_⟩
        intro t ht _
        exact h2 hmr t ht
    · rw [if_neg hmr]
      constructor
      · intro h1
        exact ⟨h1, fun h2 => absurd h2 hmr⟩
      · intro h1
        exact h1.1
  refine ⟨hchar, ?_⟩
  intro w hw
  obtain ⟨hwbase, hwcand⟩ := (hchar w).mp hw
  show w ∈ filteredData m (some q2) pos sort false
  unfold filteredData
  simp only [Option.getD_some, Bool.false_and, if_false]
  cases hqt2 : qTruthy (some q2) with
  | false =>
    simp only [Bool.false_and, if_false]
    exact hwbase
  | true =>
    simp only [Bool.true_and]
    by_cases hmr : modelReady m = true
    · rw [hmr, if_pos rfl, hsi2]
      rcases foldWordsNoneChar m
          (matchesPolicy (canInclude (queryFuzzyWords q2)))
          (queryFuzzyWords q2) with hnone | ⟨s2, hfold2, hiff2⟩
      · rw [hnone]
        exact hwbase
      · rw [hfold2]
        refine List.mem_filter.mpr ⟨hwbase, ?_⟩
        simp only [decide_eq_true_eq]
        apply (hiff2 w.index).mpr
        intro t ht _
        exact wordCandidatesMono m (matchesPolicy false)
          (matchesPolicy (canInclude (queryFuzzyWords q2)))
          (fun a b => matchesPolicyFalseLe _ a b) (normalizeLetter t) w.index
          (hwcand hmr t (hsub t ht))
    · have hmr2 : modelReady m = false := by
        cases h2 : modelReady m
        · rfl
        · exact absurd h2 hmr
      rw [hmr2]
      simp only [Bool.false_eq_true, if_false]
      exact hwbase

/-- C6 witness at a concrete model and query pair. -/
theorem claim_C6_multi_token_witness :
    (∀ w, w ∈ (lookupWords m6 (some "бар барс".data) none freqStr none
        false).data ↔
        (w ∈ posData m6 freqStr none ∧ (modelReady m6 = true →
          ∀ t ∈ queryFuzzyWords "бар барс".data,
            w.index ∈ wordCandidates m6 (matchesPolicy false)
              (normalizeLetter t))))
    ∧ ∀ w ∈ (lookupWords m6 (some "бар барс".data) none freqStr none
        false).data,
        w ∈ (lookupWords m6 (some "бар".data) none freqStr none false).data :=
  claim_C6_multi_token m6 "бар барс".data "бар".data none freqStr
    (by decide) (by decide) (by decide) (by decide)

/-! ### Claim C8: alpha versus alpha_rev -/

theorem phraseStepCongr (rd1 rd2 : List Entry)
    (hmem : ∀ w : Entry, w ∈ rd1 ↔ w ∈ rd2) (acc : Option (List Nat))
    (ph : Str) : phraseStep rd1 acc ph = phraseStep rd2 acc ph := by
  cases acc with
  | none => rfl
  | some s =>
    have hgood : ∀ i : Nat,
        (i ∈ ((rd1.filter (fun w => w.index ∈ s)).filter
            (fun w => entryMatchesPhrase w ph)).map (fun w => w.index)) ↔
        (i ∈ ((rd2.filter (fun w => w.index ∈ s)).filter
            (fun w => entryMatchesPhrase w ph)).map (fun w => w.index)) := by
      intro i
      simp only [List.mem_map, List.mem_filter]
      constructor
      · rintro ⟨w, ⟨⟨hw, hs2⟩, hm⟩, hidx⟩
        exact ⟨w, ⟨⟨(hmem w).mp hw, hs2⟩, hm⟩, hidx⟩
      · rintro ⟨w, ⟨⟨hw, hs2⟩, hm⟩, hidx⟩
        exact ⟨w, ⟨⟨(hmem w).mpr hw, hs2⟩, hm⟩, hidx⟩
    simp only [phraseStep]
    congr 1
    apply List.filter_congr
    intro i _
    exact decide_eq_decide.mpr (hgood i)

theorem searchIndexesCongr (m : Model) (q : Str) (rd1 rd2 : List Entry)
    (hmem : ∀ w : Entry, w ∈ rd1 ↔ w ∈ rd2) :
    searchIndexes m q rd1 = searchIndexes m q rd2 := by
  unfold searchIndexes
  have hfold : ∀ (phs : List Str) (acc : Option (List Nat)),
      phs.foldl (phraseStep rd1) acc = phs.foldl (phraseStep rd2) acc := by
    intro phs
    induction phs with
    | nil => intro acc; rfl
    | cons p ps ih =>
      intro acc
      simp only [List.foldl_cons]
      rw [phraseStepCongr rd1 rd2 hmem acc p]
      exact ih _
  exact hfold _ _

/-- C8: with identical other parameters, the untruncated filtered sequence
for `alpha_rev` is the exact reverse of the one for `alpha`, and so are the
`data` lists when no limit truncates them. -/
theorem claim_C8_alpha_reverse (m : Model) (sq pos : Option Str) (ex : Bool) :
    filteredData m sq pos alphaRevStr ex =
      (filteredData m sq pos alphaStr ex).reverse
    ∧ (lookupWords m sq pos alphaRevStr none ex).data =
      ((lookupWords m sq pos alphaStr none ex).data).reverse := by
  have h1 : baseData m alphaRevStr = (alphaData m).reverse := by
    unfold baseData
    rw [if_neg (by decide), if_neg (by decide), if_pos rfl]
  have h2 : baseData m alphaStr = alphaData m := by
    unfold baseData
    rw [if_neg (by decide), if_pos rfl]
  have hpos : posData m alphaRevStr pos = (posData m alphaStr pos).reverse := by
    unfold posData
    cases pos with
    | none => rw [h1, h2]
    | some p =>
      by_cases hp : p.isEmpty = true
      · simp only [hp, if_true]
        rw [h1, h2]
      · simp only [hp, if_false]
        rw [h1, h2, List.filter_reverse]
        simp
  have hmemrev : ∀ w : Entry,
      w ∈ posData m alphaRevStr pos ↔ w ∈ posData m alphaStr pos := by
    intro w
    rw [hpos, List.mem_reverse]
  have hrd2 : (if qTruthy sq && modelReady m then
      match searchIndexes m (sq.getD []) (posData m alphaRevStr pos) with
      | none => posData m alphaRevStr pos
      | some s => (posData m alphaRevStr pos).filter (fun w => w.index ∈ s)
    else posData m alphaRevStr pos) =
    (if qTruthy sq && modelReady m then
      match searchIndexes m (sq.getD []) (posData m alphaStr pos) with
      | none => posData m alphaStr pos
      | some s => (posData m alphaStr pos).filter (fun w => w.index ∈ s)
    else posData m alphaStr pos).reverse := by
    rw [searchIndexesCongr m (sq.getD []) (posData m alphaRevStr pos)
      (posData m alphaStr pos) hmemrev]
    cases hcond : (qTruthy sq && modelReady m) with
    | false =>
      simp only [Bool.false_eq_true, if_false]
      exact hpos
    | true =>
      simp only [if_true]
      cases hsi : searchIndexes m (sq.getD []) (posData m alphaStr pos) with
      | none => exact hpos
      | some s =>
        simp only
        rw [hpos, List.filter_reverse]
  have hmain : filteredData m sq pos alphaRevStr ex =
      (filteredData m sq pos alphaStr ex).reverse := by
    unfold filteredData
    cases hcond2 : (ex && qTruthy sq) with
    | false =>
      simp only [Bool.false_eq_true, if_false]
      exact hrd2
    | true =>
      simp only [if_true]
      rw [hrd2, List.filter_reverse]
  exact ⟨hmain, hmain⟩
